import Mathlib

/-!
Verification development for the UEFA draw simulator
(`Sorteio_Jogos`: `models.py`, `constraints.py`, `draw_simulator.py`).

The Python code is shallowly embedded: clubs are identified by their
(name, country) pair — exactly the identity used by `Club.__eq__` and
`Club.__hash__` — and the single mutable store of club objects is a list
of `ClubSt` records indexed by that identity.  Opponent lists hold club
identities (the spec's recommended index representation of the Python
back-references).  The `coefficient` field is omitted: it is a float that
no embedded operation reads.  Python's bounded recursion is rendered with
a fuel parameter that strictly exceeds the depth the search can reach.
-/

/-- Club identity: `Club.__eq__` compares `(name, country)`. -/
structure ClubId where
  name : String
  country : String
deriving DecidableEq, Repr

/-- Mutable state of one `Club` object: static attributes plus the two
ordered opponent lists (`home_opponents`, `away_opponents`). -/
structure ClubSt where
  name : String
  country : String
  pot : Nat
  home : List ClubId
  away : List ClubId
deriving DecidableEq, Repr

/-- Identity of a club record. -/
def cid (c : ClubSt) : ClubId := ⟨c.name, c.country⟩

/-- `DrawConstraints` configuration record (`constraints.py`). -/
structure Profile where
  max_same_country : Nat
  matches_per_team : Nat
  home_matches : Nat
  away_matches : Nat
deriving DecidableEq, Repr

/-- `ChampionsLeagueConstraints()` base fields. -/
def championsProfile : Profile := ⟨2, 8, 4, 4⟩

/-- `EuropaLeagueConstraints()`. -/
def europaProfile : Profile := ⟨2, 8, 4, 4⟩

/-- `ConferenceLeagueConstraints()`. -/
def conferenceProfile : Profile := ⟨2, 6, 3, 3⟩

/-- Resolve a club identity in the store (Python: dereferencing the club
object).  `List.find?` returns the first record with this identity. -/
def getClub (σ : List ClubSt) (x : ClubId) : Option ClubSt :=
  σ.find? (fun c => decide (cid c = x))

/-- `Club.all_opponents`: `home_opponents + away_opponents`. -/
def all_opponents (c : ClubSt) : List ClubId := c.home ++ c.away

/-- `Club.opponent_countries.get(ctry, 0)`: how many of `c`'s opponents
come from country `ctry`. -/
def countCountry (c : ClubSt) (ctry : String) : Nat :=
  (all_opponents c).countP (fun o => decide (o.country = ctry))

/-- `DrawConstraints.can_pair(club1, club2, as_home)` (validity flag only;
the Python reason string is presentation).  A lookup that fails cannot
happen in the simulator (clubs are passed as live objects); it is mapped
to `false`. -/
def can_pair (K : Profile) (σ : List ClubSt) (x y : ClubId) (asHome : Bool) : Bool :=
  match getClub σ x, getClub σ y with
  | some c1, some c2 =>
    if x = y then false
    else if x.country = y.country then false
    else if y ∈ all_opponents c1 then false
    else if K.max_same_country ≤ countCountry c1 y.country then false
    else if K.max_same_country ≤ countCountry c2 x.country then false
    else if asHome then
      decide (c1.home.length < K.home_matches) && decide (c2.away.length < K.away_matches)
    else
      decide (c1.away.length < K.away_matches) && decide (c2.home.length < K.home_matches)
  | _, _ => false

/-- `Club.is_complete`: hardcoded `len(home) == 4 and len(away) == 4`. -/
def is_complete (σ : List ClubSt) (x : ClubId) : Bool :=
  match getClub σ x with
  | some c => decide (c.home.length = 4) && decide (c.away.length = 4)
  | none => false

/-- `Club.needs_home > 0`, i.e. `4 - len(home) > 0`. -/
def needs_home_pos (σ : List ClubSt) (x : ClubId) : Bool :=
  match getClub σ x with
  | some c => decide (c.home.length < 4)
  | none => false

/-- `Club.needs_away > 0`. -/
def needs_away_pos (σ : List ClubSt) (x : ClubId) : Bool :=
  match getClub σ x with
  | some c => decide (c.away.length < 4)
  | none => false

/-- `UEFADrawSimulator._count_valid_opponents(club, all_clubs)` — the
uncached domain-size counter: one-directional `can_pair` checks, skipping
the club itself and complete clubs. -/
def count_valid_opponents (K : Profile) (σ : List ClubSt) (x : ClubId)
    (ids : List ClubId) : Nat :=
  ids.foldl
    (fun acc o =>
      if o = x then acc
      else if is_complete σ o then acc
      else
        acc
          + (if needs_home_pos σ x && can_pair K σ x o true then 1 else 0)
          + (if needs_away_pos σ x && can_pair K σ x o false then 1 else 0))
    0

/-- `UEFADrawSimulator._get_valid_opponents(club, all_clubs, as_home)`:
bidirectional filter — forward `can_pair` plus the reverse check with the
role flipped, skipping the club itself and complete clubs. -/
def get_valid_opponents (K : Profile) (σ : List ClubSt) (x : ClubId)
    (ids : List ClubId) (asHome : Bool) : List ClubId :=
  ids.filter
    (fun o =>
      !(decide (o = x)) && !(is_complete σ o)
        && can_pair K σ x o asHome && can_pair K σ o x (!asHome))

/-- `DrawConstraints.get_valid_opponents(club, candidates, as_home)` —
the constraint-class variant: one-directional filter only. -/
def constraints_valid_opponents (K : Profile) (σ : List ClubSt) (x : ClubId)
    (ids : List ClubId) (asHome : Bool) : List ClubId :=
  ids.filter (fun o => can_pair K σ x o asHome)

/-- The pseudo-random source behind `random.shuffle`, abstracted as an
oracle: call number `t` (shuffle calls are counted through the run) and
position `i` yield the raw draw used for the Fisher–Yates swap index at
position `i` (taken modulo `i+1`, mirroring `randbelow(i+1)`).  A Python
seed determines one such oracle. -/
abbrev Oracle : Type := Nat → Nat → Nat

/-- The identity-permutation oracle: every swap index equals its own
position, so every shuffle leaves its list unchanged. -/
def idOracle : Oracle := fun _ i => i

/-- Swap two positions of a list (out-of-range indices: no change). -/
def swapAt {α : Type} (l : List α) (i j : Nat) : List α :=
  match l[i]?, l[j]? with
  | some vi, some vj => (l.set i vj).set j vi
  | _, _ => l

/-- Fisher–Yates sweep of `random.shuffle`: for `i` from `n-1` down to 1,
swap position `i` with the drawn position `≤ i`. -/
def shuffleAux {α : Type} (O : Oracle) (t : Nat) : Nat → List α → List α
  | 0, l => l
  | i + 1, l => shuffleAux O t i (swapAt l (i + 1) (O t (i + 1) % (i + 2)))

/-- One `random.shuffle(l)` call, as shuffle call number `t`. -/
def shuffleList {α : Type} (O : Oracle) (t : Nat) (l : List α) : List α :=
  shuffleAux O t (l.length - 1) l

/-- Search-wide mutable state of `UEFADrawSimulator` during one draw:
the club store, `backtrack_count`, `_opponent_count_cache` (an assoc
list in dict insertion order), and the shuffle-call counter standing for
the global PRNG stream position.  `undos` is a ghost counter of undo
operations (opponent-list removals); the algorithm never reads it. -/
structure SearchSt where
  store : List ClubSt
  bt : Nat
  cache : List (String × Nat)
  rngT : Nat
  undos : Nat
deriving DecidableEq, Repr

/-- Dict lookup in the count cache. -/
def lookupAssoc : List (String × Nat) → String → Option Nat
  | [], _ => none
  | (k, v) :: t, key => if k = key then some v else lookupAssoc t key

/-- Whether `p` starts `s` (character lists). -/
def startsL : List Char → List Char → Bool
  | [], _ => true
  | _ :: _, [] => false
  | a :: p, b :: s => decide (a = b) && startsL p s

/-- Python's substring test `p in s` (character lists). -/
def hasSubstr (p : List Char) : List Char → Bool
  | [] => startsL p []
  | b :: t => startsL p (b :: t) || hasSubstr p t

/-- The cache key `f"{club.name}_{len(home)}_{len(away)}"`. -/
def cacheKey (σ : List ClubSt) (x : ClubId) : String :=
  match getClub σ x with
  | some c => x.name ++ "_" ++ Nat.repr c.home.length ++ "_" ++ Nat.repr c.away.length
  | none => x.name ++ "_" ++ Nat.repr 0 ++ "_" ++ Nat.repr 0

/-- `UEFADrawSimulator._count_valid_opponents_cached` when `useCache` is
set, and plain `_count_valid_opponents` when it is not (the otherwise
identical uncached solver of the comparison). -/
def count_valid_cached (K : Profile) (useCache : Bool) (ids : List ClubId)
    (x : ClubId) (st : SearchSt) : Nat × SearchSt :=
  if useCache then
    let key := cacheKey st.store x
    match lookupAssoc st.cache key with
    | some v => (v, st)
    | none =>
      let v := count_valid_opponents K st.store x ids
      (v, { st with cache := st.cache ++ [(key, v)] })
  else
    (count_valid_opponents K st.store x ids, st)

/-- `UEFADrawSimulator._invalidate_cache(club_name)`: delete every cache
entry whose key has `club_name` as a substring (Python `club_name in k`). -/
def invalidate_cache (st : SearchSt) (nm : String) : SearchSt :=
  { st with cache := st.cache.filter (fun kv => !(hasSubstr nm.data kv.1.data)) }

/-- Append `v` to `target`'s home (or away) opponent list. -/
def appendOpp (σ : List ClubSt) (target v : ClubId) (toHome : Bool) : List ClubSt :=
  σ.map (fun c =>
    if cid c = target then
      if toHome then { c with home := c.home ++ [v] } else { c with away := c.away ++ [v] }
    else c)

/-- Python `list.remove`: drop the first occurrence (no-op when absent;
the simulator only removes elements it has just appended). -/
def eraseFirst : List ClubId → ClubId → List ClubId
  | [], _ => []
  | y :: t, v => if y = v then t else y :: eraseFirst t v

/-- Remove the first occurrence of `v` from `target`'s home (or away)
opponent list. -/
def eraseOpp (σ : List ClubSt) (target v : ClubId) (fromHome : Bool) : List ClubSt :=
  σ.map (fun c =>
    if cid c = target then
      if fromHome then { c with home := eraseFirst c.home v } else { c with away := eraseFirst c.away v }
    else c)

/-- The solver's assignment step: `club` gains `opponent` in the chosen
role list and `opponent` gains `club` in the opposite-role list. -/
def applyAssign (σ : List ClubSt) (x o : ClubId) (asHome : Bool) : List ClubSt :=
  appendOpp (appendOpp σ x o asHome) o x (!asHome)

/-- The solver's undo step: the two `list.remove` calls of the backtrack
branch. -/
def applyUndo (σ : List ClubSt) (x o : ClubId) (asHome : Bool) : List ClubSt :=
  eraseOpp (eraseOpp σ x o asHome) o x (!asHome)

/-- Stable ascending insertion by key.  Python's `list.sort(key=f)` is
the unique stable ascending reordering by `f`, which this computes. -/
def insertByKey {α : Type} (key : α → Nat) (a : α) : List α → List α
  | [] => [a]
  | b :: t => if key b < key a then b :: insertByKey key a t else a :: b :: t

/-- Stable sort by key (see `insertByKey`). -/
def sortByKey {α : Type} (key : α → Nat) : List α → List α
  | [] => []
  | x :: t => insertByKey key x (sortByKey key t)

/-- `UEFADrawSimulator._get_valid_opponents_sorted`: bidirectional filter,
then `random.shuffle`, then a stable ascending sort keyed by each
candidate's own uncached valid-opponent count. -/
def get_valid_opponents_sorted (K : Profile) (O : Oracle) (ids : List ClubId)
    (x : ClubId) (asHome : Bool) (st : SearchSt) : List ClubId × SearchSt :=
  let valid := get_valid_opponents K st.store x ids asHome
  let shuf := shuffleList O st.rngT valid
  (sortByKey (fun c => count_valid_opponents K st.store c ids) shuf,
   { st with rngT := st.rngT + 1 })

/-- The forward-checking loop: scan the incomplete clubs, returning
`false` at the first one whose (cached) domain size is zero. -/
def forwardCheck (K : Profile) (useCache : Bool) (ids : List ClubId) :
    List ClubId → SearchSt → Bool × SearchSt
  | [], st => (true, st)
  | c :: rest, st =>
    let p := count_valid_cached K useCache ids c st
    if p.1 = 0 then (false, p.2) else forwardCheck K useCache ids rest p.2

/-- Tail of Python `min(incomplete, key=...)`: keep the first club whose
key is strictly smaller than the best so far. -/
def mrvGo (K : Profile) (useCache : Bool) (ids : List ClubId)
    (best : ClubId) (bestv : Nat) : List ClubId → SearchSt → ClubId × SearchSt
  | [], st => (best, st)
  | c :: rest, st =>
    let p := count_valid_cached K useCache ids c st
    if p.1 < bestv then mrvGo K useCache ids c p.1 rest p.2
    else mrvGo K useCache ids best bestv rest p.2

/-- `min(incomplete, key=lambda c: ...cached(c, clubs))` on a nonempty
list `x0 :: rest`. -/
def mrvMin (K : Profile) (useCache : Bool) (ids : List ClubId)
    (x0 : ClubId) (rest : List ClubId) (st : SearchSt) : ClubId × SearchSt :=
  let p := count_valid_cached K useCache ids x0 st
  mrvGo K useCache ids x0 p.1 rest p.2

/-- `self.max_backtrack` as set in `__init__`. -/
def maxBacktrack : Nat := 50000

/-- The candidate loop of `_assign_opponents_optimized`: assign, recurse
(through `rec`), and on failure increment `backtrack_count`, undo, and
move to the next candidate. -/
def tryCands (x : ClubId) (asHome : Bool) (rec : SearchSt → Bool × SearchSt) :
    List ClubId → SearchSt → Bool × SearchSt
  | [], st => (false, st)
  | o :: rest, st =>
    let st1 := { st with store := applyAssign st.store x o asHome }
    let st2 := invalidate_cache (invalidate_cache st1 x.name) o.name
    let p := rec st2
    if p.1 then (true, p.2)
    else
      let st4 := { p.2 with bt := p.2.bt + 1 }
      let st5 := { st4 with store := applyUndo st4.store x o asHome, undos := st4.undos + 1 }
      let st6 := invalidate_cache (invalidate_cache st5 x.name) o.name
      tryCands x asHome rec rest st6

/-- The `for as_home in directions` loop. -/
def tryDirs (K : Profile) (O : Oracle) (ids : List ClubId) (x : ClubId)
    (rec : SearchSt → Bool × SearchSt) : List Bool → SearchSt → Bool × SearchSt
  | [], st => (false, st)
  | d :: rest, st =>
    let q := get_valid_opponents_sorted K O ids x d st
    let p := tryCands x d rec q.1 q.2
    if p.1 then (true, p.2) else tryDirs K O ids x rec rest p.2

/-- `UEFADrawSimulator._assign_opponents_optimized`.  The fuel argument
is an artifact of the embedding: the Python recursion's depth is bounded
because reachable states never pass the quota caps, and `drawRun` below
supplies ample fuel. -/
def assign_opponents (K : Profile) (useCache : Bool) (O : Oracle) (ids : List ClubId) :
    Nat → SearchSt → Bool × SearchSt
  | 0, st => (false, st)
  | fuel + 1, st =>
    if maxBacktrack < st.bt then (false, st)
    else
      match ids.filter (fun x => !(is_complete st.store x)) with
      | [] => (true, st)
      | x0 :: irest =>
        let p := forwardCheck K useCache ids (x0 :: irest) st
        if p.1 then
          let q := mrvMin K useCache ids x0 irest p.2
          let nh := needs_home_pos q.2.store q.1
          let na := needs_away_pos q.2.store q.1
          if !nh && !na then assign_opponents K useCache O ids fuel q.2
          else
            let dirs := (if nh then [true] else []) ++ (if na then [false] else [])
            tryDirs K O ids q.1 (assign_opponents K useCache O ids fuel) dirs q.2
        else (false, p.2)

/-- One fixture: the (home club, away club) identity pair. -/
abbrev FixPair : Type := ClubId × ClubId

/-- Inner loop of `_generate_fixtures`: walk one club's home-opponent
list, emitting a fixture whenever the ordered name pair is unseen. -/
def genInner (hname : String) (hid : ClubId) :
    List ClubId → List (String × String) → List FixPair → List (String × String) × List FixPair
  | [], seen, acc => (seen, acc)
  | o :: rest, seen, acc =>
    if (hname, o.name) ∈ seen then genInner hname hid rest seen acc
    else genInner hname hid rest (seen ++ [(hname, o.name)]) (acc ++ [(hid, o)])

/-- Outer loop of `_generate_fixtures` over all clubs. -/
def genOuter : List ClubSt → List (String × String) → List FixPair → List FixPair
  | [], _, acc => acc
  | c :: rest, seen, acc =>
    let p := genInner c.name (cid c) c.home seen acc
    genOuter rest p.1 p.2

/-- `UEFADrawSimulator._generate_fixtures`. -/
def generate_fixtures (σ : List ClubSt) : List FixPair := genOuter σ [] []

/-- `DrawResult` (competition tag omitted; `clubs` carries final state). -/
structure DrawResult where
  clubs : List ClubSt
  fixtures : List FixPair
  is_valid : Bool
  backtrack_count : Nat
deriving DecidableEq, Repr

/-- A seed club record of `_get_default_clubs`, with empty draw state. -/
def mkClub (nm ctry : String) (p : Nat) : ClubSt := ⟨nm, ctry, p, [], []⟩

/-- `UEFADrawSimulator._get_default_clubs()` (coefficients omitted:
informational floats unused by every embedded operation). -/
def defaultClubs : List ClubSt :=
  [ mkClub "Real Madrid" "ESP" 1, mkClub "Manchester City" "ENG" 1,
    mkClub "Bayern Munich" "GER" 1, mkClub "PSG" "FRA" 1,
    mkClub "Liverpool" "ENG" 1, mkClub "Inter Milan" "ITA" 1,
    mkClub "Borussia Dortmund" "GER" 1, mkClub "Barcelona" "ESP" 1,
    mkClub "Leverkusen" "GER" 1,
    mkClub "Atletico Madrid" "ESP" 2, mkClub "Juventus" "ITA" 2,
    mkClub "Benfica" "POR" 2, mkClub "Arsenal" "ENG" 2,
    mkClub "Club Brugge" "BEL" 2, mkClub "Shakhtar" "UKR" 2,
    mkClub "AC Milan" "ITA" 2, mkClub "Atalanta" "ITA" 2,
    mkClub "Sporting CP" "POR" 2,
    mkClub "FC Porto" "POR" 3, mkClub "Feyenoord" "NED" 3,
    mkClub "PSV" "NED" 3, mkClub "Celtic" "SCO" 3,
    mkClub "Monaco" "FRA" 3, mkClub "Aston Villa" "ENG" 3,
    mkClub "Bologna" "ITA" 3, mkClub "Lille" "FRA" 3,
    mkClub "Girona" "ESP" 3,
    mkClub "Stuttgart" "GER" 4, mkClub "Sturm Graz" "AUT" 4,
    mkClub "Brest" "FRA" 4, mkClub "Salzburg" "AUT" 4,
    mkClub "Red Star" "SRB" 4, mkClub "Young Boys" "SUI" 4,
    mkClub "Dinamo Zagreb" "CRO" 4, mkClub "Sparta Prague" "CZE" 4,
    mkClub "Slovan Bratislava" "SVK" 4 ]

/-- Ample fuel for `assign_opponents` on `n` clubs (the recursion adds
one assignment per level, and a club holds at most 8 opponents). -/
def drawFuel (n : Nat) : Nat := 9 * n + 10

/-- Identities of the clubs of pot `p`, in store order. -/
def potIds (σ : List ClubSt) (p : Nat) : List ClubId :=
  (σ.filter (fun c => decide (c.pot = p))).map cid

/-- `UEFADrawSimulator.draw()`: load defaults when no clubs are set,
reset all clubs, clear caches, shuffle within pots 1–4 (shuffle calls
0–3), run the optimized backtracking search, and assemble the result.
The second component is the ghost undo-operation count. -/
def drawRun (K : Profile) (useCache : Bool) (clubs0 : List ClubSt) (O : Oracle) :
    DrawResult × Nat :=
  let base := if clubs0 = [] then defaultClubs else clubs0
  let σ0 := base.map (fun c => { c with home := [], away := [] })
  let ids := shuffleList O 0 (potIds σ0 1) ++ shuffleList O 1 (potIds σ0 2)
    ++ shuffleList O 2 (potIds σ0 3) ++ shuffleList O 3 (potIds σ0 4)
  let st0 : SearchSt := ⟨σ0, 0, [], 4, 0⟩
  let p := assign_opponents K useCache O ids (drawFuel base.length) st0
  ({ clubs := p.2.store
     fixtures := if p.1 then generate_fixtures p.2.store else []
     is_valid := p.1
     backtrack_count := p.2.bt }, p.2.undos)

/-- Claim C8 counterexample state: three cached entries, where the name
of the entrant `Red` is a substring of the name of the entrant
`Red Star`. -/
def c8st : SearchSt :=
  ⟨[], 0, [("Red_0_0", 2), ("Red Star_0_0", 3), ("Blue_0_0", 1)], 0, 0⟩

/-- Claim C6 counterexample state: entrant `Aa` already lists `Bb`
before the assignment is applied. -/
def c6sigma : List ClubSt :=
  [⟨"Aa", "K1", 1, [⟨"Bb", "K2"⟩, ⟨"Cc", "K3"⟩], []⟩,
   ⟨"Bb", "K2", 2, [], []⟩, ⟨"Cc", "K3", 3, [], []⟩]

/-- Claim C6 starting state for the witness: two fresh entrants. -/
def c6init : List ClubSt := [mkClub "Aa" "K1" 1, mkClub "Bb" "K2" 2]

/-- Ordered dedup key of `_generate_fixtures`: `(club.name, opp.name)`. -/
def fixKey (f : FixPair) : String × String := (f.1.name, f.2.name)

/-- Claim C10 counterexample state: both orientations of the same pair
appear across home-opponent lists. -/
def c10state : List ClubSt :=
  [⟨"Aa", "K1", 1, [⟨"Bb", "K2"⟩], []⟩, ⟨"Bb", "K2", 2, [⟨"Aa", "K1"⟩], []⟩]

/-- Claim C3 witness state: two fresh clubs. -/
def c3sigma : List ClubSt := [mkClub "Ax" "K1" 1, mkClub "Bx" "K2" 2]

/-- One mutation step of the solver on the shared club store: an assign
guarded exactly as in `_assign_opponents_optimized` (the candidate passed
the bidirectional `can_pair` filter) or an undo (the paired
`list.remove` calls). -/
inductive SolverStep (K : Profile) : List ClubSt → List ClubSt → Prop
  | assign (σ : List ClubSt) (x o : ClubId) (asHome : Bool)
      (hf : can_pair K σ x o asHome = true)
      (hr : can_pair K σ o x (!asHome) = true) :
      SolverStep K σ (applyAssign σ x o asHome)
  | undo (σ : List ClubSt) (x o : ClubId) (asHome : Bool) :
      SolverStep K σ (applyUndo σ x o asHome)

/-- States reachable from a starting store via solver steps. -/
def Reachable (K : Profile) : List ClubSt → List ClubSt → Prop :=
  Relation.ReflTransGen (SolverStep K)

/-- The store right after `draw()` resets every club
(`club.reset()`: empty opponent lists). -/
def initState (clubs : List ClubSt) : List ClubSt :=
  clubs.map (fun c => { c with home := [], away := [] })

/-- The data-model invariant of claim C5 plus distinctness of the
entrant identities (an entrant set). -/
def StoreInv (K : Profile) (σ : List ClubSt) : Prop :=
  (σ.map cid).Nodup ∧
    ∀ c ∈ σ, cid c ∉ all_opponents c ∧ (all_opponents c).Nodup ∧
      c.home.length ≤ K.home_matches ∧ c.away.length ≤ K.away_matches

/-- Claim C5 witness entrants. -/
def c5clubs : List ClubSt := [mkClub "Ax" "K1" 1, mkClub "Bx" "K2" 2]

/-- Claim C5 witness state: one guarded assign step from the reset
store. -/
def c5next : List ClubSt := applyAssign (initState c5clubs) ⟨"Ax", "K1"⟩ ⟨"Bx", "K2"⟩ true

/-- All opponent references point back into the store. -/
def OppsIn (σ : List ClubSt) : Prop :=
  ∀ c ∈ σ, ∀ o ∈ all_opponents c, o ∈ σ.map cid

/-- The full search-state invariant threaded through the solver. -/
def SearchInv (K : Profile) (σ : List ClubSt) : Prop :=
  StoreInv K σ ∧ OppsIn σ

/-- Contract of the recursive search call threaded through the loops:
failure restores the store, success yields an invariant store with no
incomplete searched club, and identities are preserved. -/
def RecOK (K : Profile) (ids : List ClubId) (rec : SearchSt → Bool × SearchSt) : Prop :=
  ∀ st, SearchInv K st.store →
    ((rec st).1 = false → (rec st).2.store = st.store) ∧
    ((rec st).1 = true → SearchInv K (rec st).2.store ∧
       ids.filter (fun y => !(is_complete (rec st).2.store y)) = []) ∧
    (rec st).2.store.map cid = st.store.map cid

/-- Claim C2 witness entrants: one distinct club in pot 1. -/
def c2clubs : List ClubSt := [mkClub "Pa" "K1" 1]

/-- Claim C4 witness entrants: two distinct clubs. -/
def c4clubs : List ClubSt := [mkClub "Pa" "K1" 1, mkClub "Qa" "K2" 2]

/-- Claim C1 counterexample entrants: nine distinct clubs able to
complete a Champions League draw. -/
def c1clubs : List ClubSt :=
  [ mkClub "A" "a" 1, mkClub "B" "b" 2, mkClub "C" "c" 3, mkClub "D" "d" 4,
    mkClub "E" "e" 1, mkClub "F" "f" 2, mkClub "G" "g" 3, mkClub "H" "h" 4,
    mkClub "I" "i" 1 ]

/-- Claim C1 counterexample oracle (one seeded PRNG stream). -/
def c1oracle : Oracle := fun t i => 3 * t + 7 * i

/-! Helper lemmas. -/

/-- A pattern starts every list it is appended to. -/
theorem startsL_append (p q : List Char) : startsL p (p ++ q) = true := by
  induction p with
  | nil => rfl
  | cons a t ih => simp [startsL, ih]

/-- Starting a list is one way of being a substring of it. -/
theorem hasSubstr_of_startsL (p s : List Char) (h : startsL p s = true) :
    hasSubstr p s = true := by
  cases s with
  | nil => simpa [hasSubstr] using h
  | cons b t => simp [hasSubstr, h]

/-- Erasing a freshly appended element restores the list when the element
was not already present. -/
theorem eraseFirst_append_self (l : List ClubId) (v : ClubId) (h : v ∉ l) :
    eraseFirst (l ++ [v]) v = l := by
  induction l with
  | nil => simp [eraseFirst]
  | cons a t ih =>
    have hav : ¬(a = v) := fun hh => h (hh ▸ List.mem_cons_self a t)
    simp only [List.cons_append, eraseFirst, if_neg hav]
    exact congrArg (fun l => a :: l) (ih (fun hm => h (List.mem_cons_of_mem a hm)))


/-- Claim C8: the claim fails as stated.  After pairing `Red` with
`Blue`, invalidating `Red` also deletes the cached entry of the third
entrant `Red Star`, whose own state did not change — because the key
match is a substring test. -/
theorem C8_counterexample :
    ("Red Star_0_0", 3) ∈ c8st.cache ∧
      ("Red Star_0_0", 3) ∉ (invalidate_cache c8st "Red").cache ∧
      ("Red Star_0_0", 3) ∉ (invalidate_cache (invalidate_cache c8st "Red") "Blue").cache := by
  decide

/-- Claim C8 (amended): invalidation deletes exactly the cache entries
whose key contains the club's name as a substring.  This always covers
every entry keyed by the club itself (such keys start with the name),
but can also delete entries of third entrants whose key contains the
name, as when one entrant's name is a substring of another's. -/
theorem C8_amended (st : SearchSt) (nm : String) :
    (∀ k v, (k, v) ∈ (invalidate_cache st nm).cache ↔
        (k, v) ∈ st.cache ∧ hasSubstr nm.data k.data = false) ∧
      (∀ (suffix : String) v, (nm ++ suffix, v) ∉ (invalidate_cache st nm).cache) := by
  constructor
  · intro k v
    simp [invalidate_cache, List.mem_filter]
  · intro suffix v hmem
    have hk := (List.mem_filter.mp hmem).2
    simp only [Bool.not_eq_true'] at hk
    have hk2 : hasSubstr nm.data (nm.data ++ suffix.data) = false := by
      simpa [String.data_append] using hk
    rw [hasSubstr_of_startsL _ _ (startsL_append _ _)] at hk2
    simp at hk2

/-- Claim C9: the draw is deterministic in the seed — two runs with
pointwise equal pseudo-random oracles (the embedding of two runs seeded
identically), the same club list, and the same parameters produce the
same `DrawResult` (hence the same final pairing lists). -/
theorem C9_seed_determinism (K : Profile) (useCache : Bool) (clubs : List ClubSt)
    (f g : Oracle) (h : ∀ t i, f t i = g t i) :
    drawRun K useCache clubs f = drawRun K useCache clubs g := by
  have hfg : f = g := funext fun t => funext fun i => h t i
  rw [hfg]

/-- Claim C9 witness: the determinism theorem applied to a concrete club
list and two syntactically different but pointwise equal oracles. -/
theorem C9_seed_determinism_witness :
    drawRun championsProfile true [mkClub "Pa" "K1" 1] idOracle
      = drawRun championsProfile true [mkClub "Pa" "K1" 1] (fun _ i => 0 + i) :=
  C9_seed_determinism championsProfile true [mkClub "Pa" "K1" 1] idOracle
    (fun _ i => 0 + i) (fun _ i => (Nat.zero_add i).symm)


/-- Claim C6: the claim fails as stated for arbitrary entrant states.
When the appended opponent already occurs in the list, Python's
`list.remove` deletes the first occurrence, so assign-then-undo reorders
the prior list instead of restoring it. -/
theorem C6_counterexample :
    applyUndo (applyAssign c6sigma ⟨"Aa", "K1"⟩ ⟨"Bb", "K2"⟩ true) ⟨"Aa", "K1"⟩ ⟨"Bb", "K2"⟩ true
      ≠ c6sigma := by
  decide

/-- Assign followed by undo is the identity on the club store provided
neither entrant already lists the other. -/
theorem undo_assign_exact (σ : List ClubSt) (x o : ClubId) (asHome : Bool)
    (hxo : x ≠ o)
    (hx : ∀ c ∈ σ, cid c = x → o ∉ all_opponents c)
    (ho : ∀ c ∈ σ, cid c = o → x ∉ all_opponents c) :
    applyUndo (applyAssign σ x o asHome) x o asHome = σ := by
  induction σ with
  | nil => rfl
  | cons c rest ih =>
    have htail := ih (fun d hd hcid => hx d (List.mem_cons_of_mem c hd) hcid)
      (fun d hd hcid => ho d (List.mem_cons_of_mem c hd) hcid)
    simp only [applyAssign, applyUndo, appendOpp, eraseOpp, List.map_cons, List.map_map] at htail ⊢
    rw [List.cons.injEq]
    refine ⟨?_, htail⟩
    by_cases hcx : cid c = x
    · have hco : ¬(cid c = o) := fun hh => hxo (hcx.symm.trans hh)
      have hoh : o ∉ c.home := fun hm => hx c (List.mem_cons_self c rest) hcx (List.mem_append.mpr (Or.inl hm))
      have hoa : o ∉ c.away := fun hm => hx c (List.mem_cons_self c rest) hcx (List.mem_append.mpr (Or.inr hm))
      simp only [cid] at hcx hco
      cases asHome
      · simp [cid, hcx, hco, hxo, Ne.symm hxo, eraseFirst_append_self _ _ hoa]
      · simp [cid, hcx, hco, hxo, Ne.symm hxo, eraseFirst_append_self _ _ hoh]
    · by_cases hco : cid c = o
      · have hxh : x ∉ c.home := fun hm => ho c (List.mem_cons_self c rest) hco (List.mem_append.mpr (Or.inl hm))
        have hxa : x ∉ c.away := fun hm => ho c (List.mem_cons_self c rest) hco (List.mem_append.mpr (Or.inr hm))
        simp only [cid] at hcx hco
        cases asHome
        · simp [cid, hcx, hco, hxo, Ne.symm hxo, eraseFirst_append_self _ _ hxh]
        · simp [cid, hcx, hco, hxo, Ne.symm hxo, eraseFirst_append_self _ _ hxa]
      · simp only [cid] at hcx hco
        cases asHome
        · simp [cid, hcx, hco, hxo, Ne.symm hxo]
        · simp [cid, hcx, hco, hxo, Ne.symm hxo]

/-- Claim C6 (amended): assign followed by undo is the identity on the
club store provided neither entrant already lists the other — exactly
what the solver's `can_pair` guard ensures before it assigns. -/
theorem C6_amended (σ : List ClubSt) (x o : ClubId) (asHome : Bool)
    (hxo : x ≠ o)
    (hx : ∀ c ∈ σ, cid c = x → o ∉ all_opponents c)
    (ho : ∀ c ∈ σ, cid c = o → x ∉ all_opponents c) :
    applyUndo (applyAssign σ x o asHome) x o asHome = σ :=
  undo_assign_exact σ x o asHome hxo hx ho


/-- Claim C6 witness: the amended round-trip applied to two concrete
fresh entrants. -/
theorem C6_amended_witness :
    applyUndo (applyAssign c6init ⟨"Aa", "K1"⟩ ⟨"Bb", "K2"⟩ true) ⟨"Aa", "K1"⟩ ⟨"Bb", "K2"⟩ true
      = c6init :=
  C6_amended c6init ⟨"Aa", "K1"⟩ ⟨"Bb", "K2"⟩ true (by decide) (by decide) (by decide)



/-- Claim C10: the claim fails as stated.  `_generate_fixtures` keys its
`seen` set by the ordered name pair, so a state carrying both
orientations of one unordered pair yields two fixtures, not one. -/
theorem C10_counterexample :
    (generate_fixtures c10state).length = 2 ∧
      ∀ f ∈ generate_fixtures c10state,
        (f.1.name = "Aa" ∧ f.2.name = "Bb") ∨ (f.1.name = "Bb" ∧ f.2.name = "Aa") := by
  decide

/-- Invariant of the inner fixture loop: emitted fixtures have their key
in the seen set, and the emitted keys stay pairwise distinct. -/
theorem genInner_inv (hname : String) (hid : ClubId) (hh : hid.name = hname)
    (opps : List ClubId) (seen : List (String × String)) (acc : List FixPair)
    (hsub : ∀ f ∈ acc, fixKey f ∈ seen)
    (hnd : (acc.map fixKey).Nodup) :
    (∀ f ∈ (genInner hname hid opps seen acc).2, fixKey f ∈ (genInner hname hid opps seen acc).1) ∧
      (((genInner hname hid opps seen acc).2).map fixKey).Nodup := by
  induction opps generalizing seen acc with
  | nil => exact ⟨hsub, hnd⟩
  | cons o rest ih =>
    by_cases hmem : (hname, o.name) ∈ seen
    · simpa [genInner, hmem] using ih seen acc hsub hnd
    · have hsub2 : ∀ f ∈ acc ++ [(hid, o)], fixKey f ∈ seen ++ [(hname, o.name)] := by
        intro f hf
        rcases List.mem_append.mp hf with hf | hf
        · exact List.mem_append.mpr (Or.inl (hsub f hf))
        · have : f = (hid, o) := by simpa using hf
          subst this
          simp [fixKey, hh]
      have hnd2 : ((acc ++ [(hid, o)]).map fixKey).Nodup := by
        rw [List.map_append]
        refine List.Nodup.append hnd (by simp) ?_
        intro k hk1 hk2
        rcases List.mem_map.mp hk1 with ⟨f, hf, rfl⟩
        have hk3 : fixKey f = (hname, o.name) := by simpa [fixKey, hh] using hk2
        exact hmem (hk3 ▸ hsub f hf)
      simpa [genInner, hmem] using ih (seen ++ [(hname, o.name)]) (acc ++ [(hid, o)]) hsub2 hnd2

/-- Invariant of the outer fixture loop: the accumulated fixture keys
stay pairwise distinct. -/
theorem genOuter_inv (clubs : List ClubSt) (seen : List (String × String)) (acc : List FixPair)
    (hsub : ∀ f ∈ acc, fixKey f ∈ seen)
    (hnd : (acc.map fixKey).Nodup) :
    (((genOuter clubs seen acc)).map fixKey).Nodup := by
  induction clubs generalizing seen acc with
  | nil => exact hnd
  | cons c rest ih =>
    have h := genInner_inv c.name (cid c) rfl c.home seen acc hsub hnd
    simpa [genOuter] using ih _ _ h.1 h.2

/-- Claim C10 (amended): the Result Assembler deduplicates fixtures by
the ordered `(home name, away name)` pair — for every entrant state it
emits at most one fixture per ordered pair (so both orientations of an
unordered pair may both appear). -/
theorem C10_amended (σ : List ClubSt) :
    ((generate_fixtures σ).map fixKey).Nodup :=
  genOuter_inv σ [] [] (by simp) (by simp)

/-- Claim C3: the solver's `valid_candidates` operation
(`_get_valid_opponents`) filters the pool bidirectionally — a candidate
is kept exactly when the forward check and the reverse check with the
flipped role both pass.  The quota hypotheses hold for all three
competition profiles; they make the hardcoded `is_complete` skip
subsumed by the capacity checks. -/
theorem C3_bidirectional (K : Profile) (σ : List ClubSt) (x : ClubId)
    (pool : List ClubId) (asHome : Bool)
    (hH : K.home_matches ≤ 4) (hA : K.away_matches ≤ 4)
    (c : ClubId) (hc : c ∈ pool) :
    c ∈ get_valid_opponents K σ x pool asHome ↔
      (can_pair K σ x c asHome = true ∧ can_pair K σ c x (!asHome) = true) := by
  constructor
  · intro h
    have hp := (List.mem_filter.mp h).2
    simp only [Bool.and_eq_true] at hp
    exact ⟨hp.1.2, hp.2⟩
  · rintro ⟨hf, hr⟩
    refine List.mem_filter.mpr ⟨hc, ?_⟩
    have hcx : ¬(c = x) := by
      rintro rfl
      rw [show can_pair K σ c c asHome = false from ?_] at hf
      · cases hf
      · unfold can_pair
        cases hgc : getClub σ c with
        | none => rfl
        | some c1 => simp
    have hcomp : is_complete σ c = false := by
      cases hic : is_complete σ c with
      | false => rfl
      | true =>
        exfalso
        unfold is_complete at hic
        revert hic
        cases hgc : getClub σ c with
        | none => intro hic; cases hic
        | some cc =>
          intro hic
          simp only [Bool.and_eq_true, decide_eq_true_eq] at hic
          unfold can_pair at hf
          revert hf
          cases hgx : getClub σ x with
          | none => intro hf; rw [hgc] at hf; cases hf
          | some c1 =>
            intro hf
            rw [hgc] at hf
            dsimp only at hf
            rw [if_neg (fun hh : x = c => hcx hh.symm)] at hf
            split at hf
            · cases hf
            · split at hf
              · cases hf
              · split at hf
                · cases hf
                · split at hf
                  · cases hf
                  · cases asHome with
                    | true =>
                      simp at hf
                      omega
                    | false =>
                      simp at hf
                      omega
    simp [hcx, hcomp, hf, hr]


/-- Claim C3 witness: the bidirectional-filter characterization applied
to a concrete pool. -/
theorem C3_bidirectional_witness :
    (championsProfile.home_matches ≤ 4 ∧ championsProfile.away_matches ≤ 4)
      ∧ ((⟨"Bx", "K2"⟩ : ClubId) ∈
            get_valid_opponents championsProfile c3sigma ⟨"Ax", "K1"⟩ [⟨"Bx", "K2"⟩] true ↔
          (can_pair championsProfile c3sigma ⟨"Ax", "K1"⟩ ⟨"Bx", "K2"⟩ true = true
            ∧ can_pair championsProfile c3sigma ⟨"Bx", "K2"⟩ ⟨"Ax", "K1"⟩ (!true) = true)) :=
  ⟨⟨by decide, by decide⟩,
   C3_bidirectional championsProfile c3sigma ⟨"Ax", "K1"⟩ [⟨"Bx", "K2"⟩] true
     (by decide) (by decide) ⟨"Bx", "K2"⟩ (by decide)⟩





/-- A successful store lookup returns a member with the looked-up
identity. -/
theorem getClub_mem {σ : List ClubSt} {x : ClubId} {c : ClubSt}
    (h : getClub σ x = some c) : c ∈ σ ∧ cid c = x := by
  refine ⟨List.mem_of_find?_eq_some h, ?_⟩
  have := List.find?_some h
  simpa using this

/-- With distinct identities, lookup of a member's identity returns that
member. -/
theorem getClub_of_mem {σ : List ClubSt} {c : ClubSt}
    (hnd : (σ.map cid).Nodup) (hm : c ∈ σ) : getClub σ (cid c) = some c := by
  induction σ with
  | nil => cases hm
  | cons d rest ih =>
    rcases List.mem_cons.mp hm with rfl | hm2
    · simp [getClub, List.find?]
    · have hne : ¬(cid d = cid c) := by
        intro he
        have : cid c ∈ rest.map cid := List.mem_map.mpr ⟨c, hm2, rfl⟩
        exact (List.nodup_cons.mp hnd).1 (he ▸ this)
      simpa [getClub, List.find?, hne] using ih (List.nodup_cons.mp hnd).2 hm2

/-- Facts guaranteed by a successful `can_pair` check. -/
theorem can_pair_true_elim {K : Profile} {σ : List ClubSt} {x y : ClubId} {b : Bool}
    (h : can_pair K σ x y b = true) :
    ∃ c1 c2, getClub σ x = some c1 ∧ getClub σ y = some c2 ∧ x ≠ y ∧
      y ∉ all_opponents c1 ∧
      (b = true → c1.home.length < K.home_matches ∧ c2.away.length < K.away_matches) ∧
      (b = false → c1.away.length < K.away_matches ∧ c2.home.length < K.home_matches) := by
  unfold can_pair at h
  revert h
  cases hgx : getClub σ x with
  | none => intro h; cases h
  | some c1 =>
    cases hgy : getClub σ y with
    | none => intro h; cases h
    | some c2 =>
      intro h
      dsimp only at h
      refine ⟨c1, c2, rfl, rfl, ?_⟩
      split at h
      · cases h
      · split at h
        · cases h
        · split at h
          · cases h
          · split at h
            · cases h
            · split at h
              · cases h
              · rename_i hxy hctry hmem hl1 hl2
                refine ⟨hxy, hmem, ?_, ?_⟩
                · intro hb
                  subst hb
                  simp at h
                  exact h
                · intro hb
                  subst hb
                  simp at h
                  exact h

/-- Appending an opponent never changes the stored identities. -/
theorem appendOpp_map_cid (σ : List ClubSt) (t v : ClubId) (b : Bool) :
    (appendOpp σ t v b).map cid = σ.map cid := by
  induction σ with
  | nil => rfl
  | cons c rest ih =>
    simp only [appendOpp, List.map_cons] at ih ⊢
    rw [ih]
    congr 1
    by_cases hcq : cid c = t <;> simp only [cid] at hcq <;> cases b <;> simp [cid, hcq]

/-- Removing an opponent never changes the stored identities. -/
theorem eraseOpp_map_cid (σ : List ClubSt) (t v : ClubId) (b : Bool) :
    (eraseOpp σ t v b).map cid = σ.map cid := by
  induction σ with
  | nil => rfl
  | cons c rest ih =>
    simp only [eraseOpp, List.map_cons] at ih ⊢
    rw [ih]
    congr 1
    by_cases hcq : cid c = t <;> simp only [cid] at hcq <;> cases b <;> simp [cid, hcq]

/-- `list.remove` yields a sublist. -/
theorem eraseFirst_sublist (l : List ClubId) (v : ClubId) : (eraseFirst l v).Sublist l := by
  induction l with
  | nil => exact List.Sublist.refl _
  | cons a t ih =>
    by_cases h : a = v
    · simp only [eraseFirst, if_pos h]
      exact List.sublist_cons_self a t
    · simp only [eraseFirst, if_neg h]
      exact List.Sublist.cons₂ a ih

/-- Every record of an `eraseOpp` image comes from a record of the
store with the same identity and sublist opponent lists. -/
theorem eraseOpp_mem {σ : List ClubSt} {t v : ClubId} {b : Bool} {c' : ClubSt}
    (h : c' ∈ eraseOpp σ t v b) :
    ∃ c ∈ σ, c'.name = c.name ∧ c'.country = c.country ∧
      c'.home.Sublist c.home ∧ c'.away.Sublist c.away := by
  rcases List.mem_map.mp h with ⟨c, hc, rfl⟩
  refine ⟨c, hc, ?_⟩
  by_cases hct : cid c = t <;> simp only [cid] at hct <;> cases b <;>
    simp [cid, hct, eraseFirst_sublist, List.Sublist.refl]

/-- The undo step preserves the store invariant. -/
theorem storeInv_undo (K : Profile) (σ : List ClubSt) (x o : ClubId) (asHome : Bool)
    (hinv : StoreInv K σ) : StoreInv K (applyUndo σ x o asHome) := by
  constructor
  · rw [applyUndo, eraseOpp_map_cid, eraseOpp_map_cid]
    exact hinv.1
  · intro c' hc'
    rw [applyUndo] at hc'
    rcases eraseOpp_mem hc' with ⟨c'', hc'', hn1, hc1, hh1, ha1⟩
    rcases eraseOpp_mem hc'' with ⟨c, hc, hn2, hc2, hh2, ha2⟩
    have hbase := hinv.2 c hc
    have hcid : cid c' = cid c := by simp [cid, hn1, hc1, hn2, hc2]
    have hsub : (all_opponents c').Sublist (all_opponents c) :=
      List.Sublist.append (hh1.trans hh2) (ha1.trans ha2)
    refine ⟨?_, hbase.2.1.sublist hsub, ?_, ?_⟩
    · intro hmem
      exact hbase.1 (hcid ▸ hsub.subset hmem)
    · exact le_trans (hh1.trans hh2).length_le hbase.2.2.1
    · exact le_trans (ha1.trans ha2).length_le hbase.2.2.2

/-- Appending a fresh, distinct opponent below quota to the home list
preserves one club's invariants. -/
theorem clubInv_append_home {K : Profile} {c : ClubSt} {v : ClubId}
    (h1 : cid c ∉ all_opponents c) (h2 : (all_opponents c).Nodup)
    (h3 : c.away.length ≤ K.away_matches)
    (hv1 : v ∉ all_opponents c) (hv2 : ¬(v = cid c)) (hlen : c.home.length < K.home_matches) :
    cid { c with home := c.home ++ [v] } ∉ all_opponents { c with home := c.home ++ [v] } ∧
      (all_opponents { c with home := c.home ++ [v] }).Nodup ∧
      ({ c with home := c.home ++ [v] } : ClubSt).home.length ≤ K.home_matches ∧
      ({ c with home := c.home ++ [v] } : ClubSt).away.length ≤ K.away_matches := by
  rw [all_opponents, List.mem_append] at h1 hv1
  refine ⟨?_, ?_, ?_, ?_⟩
  · simp only [all_opponents, cid, List.mem_append, List.mem_singleton]
    push_neg
    refine ⟨⟨fun hm => h1 (Or.inl hm), fun he => hv2 ?_⟩, fun hm => h1 (Or.inr hm)⟩
    rw [cid, ← he]
  · show ((c.home ++ [v]) ++ c.away).Nodup
    rw [List.append_assoc, List.singleton_append, List.nodup_middle, List.nodup_cons]
    refine ⟨fun hm => hv1 (List.mem_append.mp hm), h2⟩
  · simp only [List.length_append, List.length_singleton]
    omega
  · exact h3

/-- Appending a fresh, distinct opponent below quota to the away list
preserves one club's invariants. -/
theorem clubInv_append_away {K : Profile} {c : ClubSt} {v : ClubId}
    (h1 : cid c ∉ all_opponents c) (h2 : (all_opponents c).Nodup)
    (h3 : c.home.length ≤ K.home_matches)
    (hv1 : v ∉ all_opponents c) (hv2 : ¬(v = cid c)) (hlen : c.away.length < K.away_matches) :
    cid { c with away := c.away ++ [v] } ∉ all_opponents { c with away := c.away ++ [v] } ∧
      (all_opponents { c with away := c.away ++ [v] }).Nodup ∧
      ({ c with away := c.away ++ [v] } : ClubSt).home.length ≤ K.home_matches ∧
      ({ c with away := c.away ++ [v] } : ClubSt).away.length ≤ K.away_matches := by
  rw [all_opponents, List.mem_append] at h1 hv1
  refine ⟨?_, ?_, ?_, ?_⟩
  · simp only [all_opponents, cid, List.mem_append, List.mem_singleton]
    push_neg
    refine ⟨fun hm => h1 (Or.inl hm), fun hm => h1 (Or.inr hm), fun he => hv2 ?_⟩
    rw [cid, ← he]
  · show (c.home ++ (c.away ++ [v])).Nodup
    rw [← List.append_assoc]
    have : (c.home ++ c.away) ++ [v] = (c.home ++ c.away) ++ v :: [] := rfl
    rw [this, List.nodup_middle, List.nodup_cons]
    refine ⟨fun hm => ?_, by simpa using h2⟩
    rw [List.append_nil] at hm
    exact hv1 (List.mem_append.mp hm)
  · exact h3
  · simp only [List.length_append, List.length_singleton]
    omega

/-- The guarded assign step preserves the store invariant. -/
theorem storeInv_assign (K : Profile) (σ : List ClubSt) (x o : ClubId) (asHome : Bool)
    (hf : can_pair K σ x o asHome = true) (hr : can_pair K σ o x (!asHome) = true)
    (hinv : StoreInv K σ) : StoreInv K (applyAssign σ x o asHome) := by
  obtain ⟨c1, c2, hgx, hgo, hxo, honx, hcapT, hcapF⟩ := can_pair_true_elim hf
  obtain ⟨d1, d2, hgo2, hgx2, hox, hxno, hcapT2, hcapF2⟩ := can_pair_true_elim hr
  rw [hgo] at hgo2
  rw [hgx] at hgx2
  injection hgo2 with hd1
  injection hgx2 with hd2
  subst hd1
  subst hd2
  constructor
  · rw [applyAssign, appendOpp_map_cid, appendOpp_map_cid]
    exact hinv.1
  · intro c' hc'
    rw [applyAssign, appendOpp] at hc'
    rcases List.mem_map.mp hc' with ⟨c'', hc'', rfl⟩
    rw [appendOpp] at hc''
    rcases List.mem_map.mp hc'' with ⟨c, hc, rfl⟩
    have hbase := hinv.2 c hc
    by_cases hcx : cid c = x
    · have hcne : ¬(cid c = o) := fun hh => hxo (hcx.symm.trans hh)
      have hcc1 : c = c1 := by
        have h1 := getClub_of_mem hinv.1 hc
        rw [hcx, hgx] at h1
        injection h1 with h2
        exact h2.symm
      have honc : o ∉ all_opponents c := hcc1 ▸ honx
      have hone : ¬(o = cid c) := fun hh => hcne hh.symm
      simp only [cid] at hcx hcne
      cases asHome
      · have hcap : c.away.length < K.away_matches := by
          have := (hcapF rfl).1
          rw [← hcc1] at this
          exact this
        simpa [cid, all_opponents, hcx, hcne, hxo, hox] using
          clubInv_append_away (K := K) hbase.1 hbase.2.1 hbase.2.2.1 honc hone hcap
      · have hcap : c.home.length < K.home_matches := by
          have := (hcapT rfl).1
          rw [← hcc1] at this
          exact this
        simpa [cid, all_opponents, hcx, hcne, hxo, hox] using
          clubInv_append_home (K := K) hbase.1 hbase.2.1 hbase.2.2.2 honc hone hcap
    · by_cases hco : cid c = o
      · have hcc2 : c = c2 := by
          have h1 := getClub_of_mem hinv.1 hc
          rw [hco, hgo] at h1
          injection h1 with h2
          exact h2.symm
        have hxnc : x ∉ all_opponents c := hcc2 ▸ hxno
        have hxne : ¬(x = cid c) := fun hh => hcx hh.symm
        simp only [cid] at hcx hco
        cases asHome
        · have hcap : c.home.length < K.home_matches := by
            have := (hcapF rfl).2
            rw [← hcc2] at this
            exact this
          simpa [cid, all_opponents, hcx, hco, hxo, hox] using
            clubInv_append_home (K := K) hbase.1 hbase.2.1 hbase.2.2.2 hxnc hxne hcap
        · have hcap : c.away.length < K.away_matches := by
            have := (hcapT rfl).2
            rw [← hcc2] at this
            exact this
          simpa [cid, all_opponents, hcx, hco, hxo, hox] using
            clubInv_append_away (K := K) hbase.1 hbase.2.1 hbase.2.2.1 hxnc hxne hcap
      · cases asHome <;> simpa [hcx, hco] using hbase

/-- Claim C5: in every state reachable from empty opponent lists via
the solver's assign and undo steps, every entrant never lists itself,
never lists the same opponent twice across the union of its two lists,
and never exceeds the profile's per-role quotas. -/
theorem C5_invariants (K : Profile) (clubs : List ClubSt) (σ : List ClubSt)
    (hnodup : ((initState clubs).map cid).Nodup)
    (hreach : Reachable K (initState clubs) σ) :
    ∀ c ∈ σ, cid c ∉ all_opponents c ∧ (all_opponents c).Nodup ∧
      c.home.length ≤ K.home_matches ∧ c.away.length ≤ K.away_matches := by
  have h0 : StoreInv K (initState clubs) := by
    refine ⟨hnodup, ?_⟩
    intro c hcm
    rcases List.mem_map.mp hcm with ⟨d, hd, rfl⟩
    simp [cid, all_opponents]
  have hinv : StoreInv K σ := by
    induction hreach with
    | refl => exact h0
    | tail hsteps hstep ih =>
      cases hstep with
      | assign x o asHome hf hr => exact storeInv_assign K _ x o asHome hf hr ih
      | undo x o asHome => exact storeInv_undo K _ x o asHome ih
  exact hinv.2



/-- Claim C5 witness: the invariants hold for a concrete entrant in a
concrete reachable state. -/
theorem C5_invariants_witness :
    cid (⟨"Ax", "K1", 1, [⟨"Bx", "K2"⟩], []⟩ : ClubSt)
        ∉ all_opponents (⟨"Ax", "K1", 1, [⟨"Bx", "K2"⟩], []⟩ : ClubSt) ∧
      (all_opponents (⟨"Ax", "K1", 1, [⟨"Bx", "K2"⟩], []⟩ : ClubSt)).Nodup ∧
      (⟨"Ax", "K1", 1, [⟨"Bx", "K2"⟩], []⟩ : ClubSt).home.length ≤ championsProfile.home_matches ∧
      (⟨"Ax", "K1", 1, [⟨"Bx", "K2"⟩], []⟩ : ClubSt).away.length ≤ championsProfile.away_matches :=
  C5_invariants championsProfile c5clubs c5next (by decide)
    (Relation.ReflTransGen.single
      (SolverStep.assign (initState c5clubs) ⟨"Ax", "K1"⟩ ⟨"Bx", "K2"⟩ true (by decide) (by decide)))
    ⟨"Ax", "K1", 1, [⟨"Bx", "K2"⟩], []⟩ (by decide)

/-! C7: the backtrack counter counts exactly the undo operations.  The ghost
field `undos` of `SearchSt` increments precisely when `applyUndo` runs (in
`tryCands`); nothing else touches it.  We show every solver component changes
`bt` and `undos` by equal amounts. -/

/-- Cached counting never moves the store, the counters, or the RNG cursor. -/
theorem cvc_pres (K : Profile) (u : Bool) (ids : List ClubId) (x : ClubId) (st : SearchSt) :
    (count_valid_cached K u ids x st).2.store = st.store ∧
      (count_valid_cached K u ids x st).2.bt = st.bt ∧
      (count_valid_cached K u ids x st).2.undos = st.undos ∧
      (count_valid_cached K u ids x st).2.rngT = st.rngT := by
  unfold count_valid_cached
  cases u
  · exact ⟨rfl, rfl, rfl, rfl⟩
  · dsimp only
    cases lookupAssoc st.cache (cacheKey st.store x) <;> exact ⟨rfl, rfl, rfl, rfl⟩

/-- Forward checking only touches the cache. -/
theorem forwardCheck_pres (K : Profile) (u : Bool) (ids : List ClubId) :
    ∀ (l : List ClubId) (st : SearchSt),
      (forwardCheck K u ids l st).2.store = st.store ∧
        (forwardCheck K u ids l st).2.bt = st.bt ∧
        (forwardCheck K u ids l st).2.undos = st.undos ∧
        (forwardCheck K u ids l st).2.rngT = st.rngT
  | [], st => ⟨rfl, rfl, rfl, rfl⟩
  | c :: rest, st => by
    have h1 := cvc_pres K u ids c st
    unfold forwardCheck
    dsimp only
    split
    · exact h1
    · have h2 := forwardCheck_pres K u ids rest (count_valid_cached K u ids c st).2
      exact ⟨h2.1.trans h1.1, h2.2.1.trans h1.2.1, h2.2.2.1.trans h1.2.2.1, h2.2.2.2.trans h1.2.2.2⟩

/-- The MRV scan only touches the cache. -/
theorem mrvGo_pres (K : Profile) (u : Bool) (ids : List ClubId) :
    ∀ (best : ClubId) (bestv : Nat) (l : List ClubId) (st : SearchSt),
      (mrvGo K u ids best bestv l st).2.store = st.store ∧
        (mrvGo K u ids best bestv l st).2.bt = st.bt ∧
        (mrvGo K u ids best bestv l st).2.undos = st.undos ∧
        (mrvGo K u ids best bestv l st).2.rngT = st.rngT
  | _, _, [], st => ⟨rfl, rfl, rfl, rfl⟩
  | best, bestv, c :: rest, st => by
    have h1 := cvc_pres K u ids c st
    unfold mrvGo
    dsimp only
    split
    · have h2 := mrvGo_pres K u ids c (count_valid_cached K u ids c st).1 rest
        (count_valid_cached K u ids c st).2
      exact ⟨h2.1.trans h1.1, h2.2.1.trans h1.2.1, h2.2.2.1.trans h1.2.2.1, h2.2.2.2.trans h1.2.2.2⟩
    · have h2 := mrvGo_pres K u ids best bestv rest (count_valid_cached K u ids c st).2
      exact ⟨h2.1.trans h1.1, h2.2.1.trans h1.2.1, h2.2.2.1.trans h1.2.2.1, h2.2.2.2.trans h1.2.2.2⟩

/-- MRV selection only touches the cache. -/
theorem mrvMin_pres (K : Profile) (u : Bool) (ids : List ClubId) (x0 : ClubId)
    (rest : List ClubId) (st : SearchSt) :
    (mrvMin K u ids x0 rest st).2.store = st.store ∧
      (mrvMin K u ids x0 rest st).2.bt = st.bt ∧
      (mrvMin K u ids x0 rest st).2.undos = st.undos ∧
      (mrvMin K u ids x0 rest st).2.rngT = st.rngT := by
  have h1 := cvc_pres K u ids x0 st
  have h2 := mrvGo_pres K u ids x0 (count_valid_cached K u ids x0 st).1 rest
    (count_valid_cached K u ids x0 st).2
  unfold mrvMin
  exact ⟨h2.1.trans h1.1, h2.2.1.trans h1.2.1, h2.2.2.1.trans h1.2.2.1, h2.2.2.2.trans h1.2.2.2⟩

/-- Invalidation only touches the cache. -/
theorem invalidate_pres (st : SearchSt) (nm : String) :
    (invalidate_cache st nm).store = st.store ∧ (invalidate_cache st nm).bt = st.bt ∧
      (invalidate_cache st nm).undos = st.undos ∧ (invalidate_cache st nm).rngT = st.rngT :=
  ⟨rfl, rfl, rfl, rfl⟩

/-- Candidate listing touches only the RNG cursor, never counters or store. -/
theorem sorted_pres (K : Profile) (O : Oracle) (ids : List ClubId) (x : ClubId)
    (d : Bool) (st : SearchSt) :
    (get_valid_opponents_sorted K O ids x d st).2.store = st.store ∧
      (get_valid_opponents_sorted K O ids x d st).2.bt = st.bt ∧
      (get_valid_opponents_sorted K O ids x d st).2.undos = st.undos ∧
      (get_valid_opponents_sorted K O ids x d st).2.cache = st.cache :=
  ⟨rfl, rfl, rfl, rfl⟩

/-- Candidate loop: the backtrack counter and the undo counter move in step. -/
theorem tryCands_delta (x : ClubId) (asHome : Bool) (rec : SearchSt → Bool × SearchSt)
    (hrec : ∀ st, (rec st).2.bt + st.undos = (rec st).2.undos + st.bt) :
    ∀ (cands : List ClubId) (st : SearchSt),
      (tryCands x asHome rec cands st).2.bt + st.undos
        = (tryCands x asHome rec cands st).2.undos + st.bt
  | [], st => Nat.add_comm _ _
  | o :: rest, st => by
    unfold tryCands
    dsimp only
    split
    · have h := hrec (invalidate_cache
        (invalidate_cache { st with store := applyAssign st.store x o asHome } x.name) o.name)
      simp only [invalidate_cache] at h ⊢
      omega
    · have h := hrec (invalidate_cache
        (invalidate_cache { st with store := applyAssign st.store x o asHome } x.name) o.name)
      have h3 := tryCands_delta x asHome rec hrec rest
        (invalidate_cache (invalidate_cache
          { (rec (invalidate_cache (invalidate_cache
              { st with store := applyAssign st.store x o asHome } x.name) o.name)).2 with
            bt := (rec (invalidate_cache (invalidate_cache
              { st with store := applyAssign st.store x o asHome } x.name) o.name)).2.bt + 1,
            store := applyUndo (rec (invalidate_cache (invalidate_cache
              { st with store := applyAssign st.store x o asHome } x.name) o.name)).2.store x o asHome,
            undos := (rec (invalidate_cache (invalidate_cache
              { st with store := applyAssign st.store x o asHome } x.name) o.name)).2.undos + 1 } x.name) o.name)
      simp only [invalidate_cache] at h h3 ⊢
      omega

/-- Direction loop: the two counters move in step. -/
theorem tryDirs_delta (K : Profile) (O : Oracle) (ids : List ClubId) (x : ClubId)
    (rec : SearchSt → Bool × SearchSt)
    (hrec : ∀ st, (rec st).2.bt + st.undos = (rec st).2.undos + st.bt) :
    ∀ (dirs : List Bool) (st : SearchSt),
      (tryDirs K O ids x rec dirs st).2.bt + st.undos
        = (tryDirs K O ids x rec dirs st).2.undos + st.bt
  | [], st => Nat.add_comm _ _
  | d :: rest, st => by
    unfold tryDirs
    dsimp only
    obtain ⟨-, hb, hu, -⟩ := sorted_pres K O ids x d st
    have h1 := tryCands_delta x d rec hrec (get_valid_opponents_sorted K O ids x d st).1
      (get_valid_opponents_sorted K O ids x d st).2
    split
    · dsimp only
      omega
    · have h2 := tryDirs_delta K O ids x rec hrec rest
        (tryCands x d rec (get_valid_opponents_sorted K O ids x d st).1
          (get_valid_opponents_sorted K O ids x d st).2).2
      omega

/-- The whole search moves the two counters in step. -/
theorem assign_delta (K : Profile) (u : Bool) (O : Oracle) (ids : List ClubId) :
    ∀ (fuel : Nat) (st : SearchSt),
      (assign_opponents K u O ids fuel st).2.bt + st.undos
        = (assign_opponents K u O ids fuel st).2.undos + st.bt
  | 0, st => Nat.add_comm _ _
  | fuel + 1, st => by
    unfold assign_opponents
    dsimp only
    split
    · exact Nat.add_comm _ _
    · split
      · exact Nat.add_comm _ _
      · rename_i x0 irest heq
        obtain ⟨-, hfb, hfu, -⟩ := forwardCheck_pres K u ids (x0 :: irest) st
        split
        · obtain ⟨-, hmb, hmu, -⟩ :=
            mrvMin_pres K u ids x0 irest (forwardCheck K u ids (x0 :: irest) st).2
          split
          · have hr := assign_delta K u O ids fuel
              (mrvMin K u ids x0 irest (forwardCheck K u ids (x0 :: irest) st).2).2
            omega
          · have hd := tryDirs_delta K O ids
              (mrvMin K u ids x0 irest (forwardCheck K u ids (x0 :: irest) st).2).1
              (assign_opponents K u O ids fuel) (assign_delta K u O ids fuel)
              ((if needs_home_pos
                  (mrvMin K u ids x0 irest (forwardCheck K u ids (x0 :: irest) st).2).2.store
                  (mrvMin K u ids x0 irest (forwardCheck K u ids (x0 :: irest) st).2).1
                then [true] else []) ++
               (if needs_away_pos
                  (mrvMin K u ids x0 irest (forwardCheck K u ids (x0 :: irest) st).2).2.store
                  (mrvMin K u ids x0 irest (forwardCheck K u ids (x0 :: irest) st).2).1
                then [false] else []))
              (mrvMin K u ids x0 irest (forwardCheck K u ids (x0 :: irest) st).2).2
            omega
        · dsimp only
          omega

/-- From the zeroed initial state the two counters end equal. -/
theorem assign_delta_zero (K : Profile) (u : Bool) (O : Oracle) (ids : List ClubId)
    (fuel : Nat) (σ : List ClubSt) :
    (assign_opponents K u O ids fuel ⟨σ, 0, [], 4, 0⟩).2.bt
      = (assign_opponents K u O ids fuel ⟨σ, 0, [], 4, 0⟩).2.undos := by
  have h := assign_delta K u O ids fuel ⟨σ, 0, [], 4, 0⟩
  dsimp only at h
  omega

/-- C7: for every draw, successful or failed, the `backtrack_count` of the
returned result equals the number of undo operations performed during the
search: every increment of the counter is paired with exactly one undo of a
previously applied assignment, and no undo happens without an increment.
Formally, the counter delta of every solver call equals its ghost
undo-counter delta, so from the zeroed initial state the two agree. -/
theorem C7_backtrack_counts_undos (K : Profile) (u : Bool) (clubs : List ClubSt) (O : Oracle) :
    (drawRun K u clubs O).1.backtrack_count = (drawRun K u clubs O).2 := by
  unfold drawRun
  dsimp only
  exact assign_delta_zero K u O _ _ _

/-! Machinery for C2 and C4: a successful search leaves every searched
club complete, while the store invariant also survives the whole search
and a failed search restores the store exactly. -/

/-- `list.set` preserves length, so a Fisher–Yates swap does. -/
theorem swapAt_length {α : Type} (l : List α) (i j : Nat) :
    (swapAt l i j).length = l.length := by
  unfold swapAt
  cases l[i]? <;> cases l[j]? <;> simp

/-- The shuffle sweep preserves length. -/
theorem shuffleAux_length {α : Type} (O : Oracle) (t : Nat) :
    ∀ (n : Nat) (l : List α), (shuffleAux O t n l).length = l.length
  | 0, l => rfl
  | n + 1, l => by
    rw [shuffleAux, shuffleAux_length O t n, swapAt_length]

/-- `random.shuffle` preserves length. -/
theorem shuffleList_length {α : Type} (O : Oracle) (t : Nat) (l : List α) :
    (shuffleList O t l).length = l.length := shuffleAux_length O t _ l

/-- A swapped element was present before the swap. -/
theorem swapAt_mem {α : Type} {l : List α} {i j : Nat} {y : α}
    (h : y ∈ swapAt l i j) : y ∈ l := by
  revert h
  unfold swapAt
  cases hi : l[i]? with
  | none => cases l[j]? <;> exact id
  | some vi =>
    cases hj : l[j]? with
    | none => exact id
    | some vj =>
      intro h
      rcases List.mem_or_eq_of_mem_set h with h2 | rfl
      · rcases List.mem_or_eq_of_mem_set h2 with h3 | rfl
        · exact h3
        · exact List.getElem?_mem hj
      · exact List.getElem?_mem hi

/-- Elements of a shuffled sweep were present before it. -/
theorem shuffleAux_mem {α : Type} (O : Oracle) (t : Nat) :
    ∀ {n : Nat} {l : List α} {y : α}, y ∈ shuffleAux O t n l → y ∈ l
  | 0, _, _, h => h
  | n + 1, l, y, h => swapAt_mem (shuffleAux_mem O t (n := n) h)

/-- Elements of a shuffled list were present before the shuffle. -/
theorem shuffleList_mem {α : Type} {O : Oracle} {t : Nat} {l : List α} {y : α}
    (h : y ∈ shuffleList O t l) : y ∈ l := shuffleAux_mem O t h

/-- Insertion by key only inserts the given element. -/
theorem insertByKey_mem {α : Type} {key : α → Nat} {a b : α} :
    ∀ {l : List α}, b ∈ insertByKey key a l → b = a ∨ b ∈ l
  | [], h => by
    rw [insertByKey] at h
    exact Or.inl (by simpa using h)
  | c :: t, h => by
    rw [insertByKey] at h
    split at h
    · rcases List.mem_cons.mp h with rfl | h2
      · exact Or.inr (List.mem_cons_self _ _)
      · rcases insertByKey_mem h2 with h3 | h3
        · exact Or.inl h3
        · exact Or.inr (List.mem_cons_of_mem _ h3)
    · rcases List.mem_cons.mp h with rfl | h2
      · exact Or.inl rfl
      · exact Or.inr h2

/-- Elements of the stable sort were present before the sort. -/
theorem sortByKey_mem {α : Type} {key : α → Nat} {b : α} :
    ∀ {l : List α}, b ∈ sortByKey key l → b ∈ l
  | [], h => h
  | c :: t, h => by
    rw [sortByKey] at h
    rcases insertByKey_mem h with rfl | h2
    · exact List.mem_cons_self _ _
    · exact List.mem_cons_of_mem _ (sortByKey_mem h2)

/-- Every candidate of `_get_valid_opponents_sorted` passed the
bidirectional filter at the current store. -/
theorem sorted_candidate_valid {K : Profile} {O : Oracle} {ids : List ClubId}
    {x : ClubId} {d : Bool} {st : SearchSt} {o : ClubId}
    (h : o ∈ (get_valid_opponents_sorted K O ids x d st).1) :
    can_pair K st.store x o d = true ∧ can_pair K st.store o x (!d) = true := by
  have h2 : o ∈ get_valid_opponents K st.store x ids d :=
    shuffleList_mem (sortByKey_mem h)
  have h3 := (List.mem_filter.mp h2).2
  simp only [Bool.and_eq_true] at h3
  exact ⟨h3.1.2, h3.2⟩



/-- Appending an opponent adds at most that one reference. -/
theorem appendOpp_opp_mem {σ : List ClubSt} {t v : ClubId} {b : Bool} {c' : ClubSt}
    (h : c' ∈ appendOpp σ t v b) :
    ∃ c ∈ σ, ∀ o ∈ all_opponents c', o ∈ all_opponents c ∨ o = v := by
  rcases List.mem_map.mp h with ⟨c, hc, rfl⟩
  refine ⟨c, hc, ?_⟩
  intro o ho
  by_cases hct : cid c = t
  · cases b <;> simp only [if_pos hct, if_true, if_false, all_opponents] at ho <;>
      rcases List.mem_append.mp ho with h1 | h1
    · exact Or.inl (List.mem_append.mpr (Or.inl h1))
    · rcases List.mem_append.mp h1 with h2 | h2
      · exact Or.inl (List.mem_append.mpr (Or.inr h2))
      · exact Or.inr (by simpa using h2)
    · rcases List.mem_append.mp h1 with h2 | h2
      · exact Or.inl (List.mem_append.mpr (Or.inl h2))
      · exact Or.inr (by simpa using h2)
    · exact Or.inl (List.mem_append.mpr (Or.inr h1))
  · rw [if_neg hct] at ho
    exact Or.inl ho

/-- The guarded assign step keeps opponent references in the store. -/
theorem oppsIn_assign {K : Profile} {σ : List ClubSt} {x o : ClubId} {asHome : Bool}
    (hf : can_pair K σ x o asHome = true) (hr : can_pair K σ o x (!asHome) = true)
    (hinv : OppsIn σ) : OppsIn (applyAssign σ x o asHome) := by
  obtain ⟨c1, c2, hgx, hgo, -, -, -, -⟩ := can_pair_true_elim hf
  have hxm : x ∈ σ.map cid := by
    rcases getClub_mem hgx with ⟨hm, hcid⟩
    exact hcid ▸ List.mem_map.mpr ⟨c1, hm, rfl⟩
  have hom : o ∈ σ.map cid := by
    rcases getClub_mem hgo with ⟨hm, hcid⟩
    exact hcid ▸ List.mem_map.mpr ⟨c2, hm, rfl⟩
  intro c' hc' y hy
  rw [applyAssign, appendOpp_map_cid, appendOpp_map_cid]
  rw [applyAssign] at hc'
  rcases appendOpp_opp_mem hc' with ⟨c'', hc'', hsub1⟩
  rcases appendOpp_opp_mem hc'' with ⟨c, hc, hsub2⟩
  rcases hsub1 y hy with h1 | rfl
  · rcases hsub2 y h1 with h2 | rfl
    · exact hinv c hc y h2
    · exact hom
  · exact hxm

/-- The undo step keeps opponent references in the store. -/
theorem oppsIn_undo {σ : List ClubSt} {x o : ClubId} {asHome : Bool}
    (hinv : OppsIn σ) : OppsIn (applyUndo σ x o asHome) := by
  intro c' hc' y hy
  rw [applyUndo, eraseOpp_map_cid, eraseOpp_map_cid]
  rw [applyUndo] at hc'
  rcases eraseOpp_mem hc' with ⟨c'', hc'', -, -, hh1, ha1⟩
  rcases eraseOpp_mem hc'' with ⟨c, hc, -, -, hh2, ha2⟩
  have hsub : (all_opponents c').Sublist (all_opponents c) :=
    List.Sublist.append (hh1.trans hh2) (ha1.trans ha2)
  exact hinv c hc y (hsub.subset hy)

/-- The guarded assign step preserves the search invariant. -/
theorem searchInv_assign {K : Profile} {σ : List ClubSt} {x o : ClubId} {asHome : Bool}
    (hf : can_pair K σ x o asHome = true) (hr : can_pair K σ o x (!asHome) = true)
    (hinv : SearchInv K σ) : SearchInv K (applyAssign σ x o asHome) :=
  ⟨storeInv_assign K σ x o asHome hf hr hinv.1, oppsIn_assign hf hr hinv.2⟩

/-- The undo step preserves the search invariant. -/
theorem searchInv_undo {K : Profile} {σ : List ClubSt} {x o : ClubId} {asHome : Bool}
    (hinv : SearchInv K σ) : SearchInv K (applyUndo σ x o asHome) :=
  ⟨storeInv_undo K σ x o asHome hinv.1, oppsIn_undo hinv.2⟩

/-- A guarded assign undoes exactly: the `can_pair` checks rule out
pre-existing mutual listings. -/
theorem undo_assign_of_can_pair {K : Profile} {σ : List ClubSt} {x o : ClubId}
    {asHome : Bool} (hnd : (σ.map cid).Nodup)
    (hf : can_pair K σ x o asHome = true) (hr : can_pair K σ o x (!asHome) = true) :
    applyUndo (applyAssign σ x o asHome) x o asHome = σ := by
  obtain ⟨c1, c2, hgx, hgo, hxo, honx, -, -⟩ := can_pair_true_elim hf
  obtain ⟨d1, d2, hgo2, hgx2, -, hxno, -, -⟩ := can_pair_true_elim hr
  rw [hgo] at hgo2
  injection hgo2 with hd1
  subst hd1
  apply undo_assign_exact σ x o asHome hxo
  · intro c hc hcid
    have h1 := getClub_of_mem hnd hc
    rw [hcid, hgx] at h1
    injection h1 with h2
    exact h2 ▸ honx
  · intro c hc hcid
    have h1 := getClub_of_mem hnd hc
    rw [hcid, hgo] at h1
    injection h1 with h2
    exact h2 ▸ hxno


/-- The candidate loop satisfies the search contract: candidates passed
the bidirectional guard, so each failed try is undone exactly. -/
theorem tryCands_ok {K : Profile} {ids : List ClubId} (x : ClubId) (asHome : Bool)
    (rec : SearchSt → Bool × SearchSt) (hrec : RecOK K ids rec) :
    ∀ (cands : List ClubId) (st : SearchSt), SearchInv K st.store →
      (∀ o ∈ cands, can_pair K st.store x o asHome = true ∧
        can_pair K st.store o x (!asHome) = true) →
      ((tryCands x asHome rec cands st).1 = false →
        (tryCands x asHome rec cands st).2.store = st.store) ∧
      ((tryCands x asHome rec cands st).1 = true →
        SearchInv K (tryCands x asHome rec cands st).2.store ∧
          ids.filter (fun y => !(is_complete (tryCands x asHome rec cands st).2.store y)) = []) ∧
      (tryCands x asHome rec cands st).2.store.map cid = st.store.map cid
  | [], st, _, _ => ⟨fun _ => rfl, fun h => by simp [tryCands] at h, rfl⟩
  | o :: rest, st, hinv, hcands => by
    have hfo := (hcands o (List.mem_cons_self o rest)).1
    have hro := (hcands o (List.mem_cons_self o rest)).2
    have hinv2 : SearchInv K (applyAssign st.store x o asHome) :=
      searchInv_assign hfo hro hinv
    have hrec2 := hrec (invalidate_cache
      (invalidate_cache { st with store := applyAssign st.store x o asHome } x.name) o.name)
      hinv2
    unfold tryCands
    dsimp only
    split
    · rename_i hsucc
      refine ⟨fun h => by simp at h, fun _ => hrec2.2.1 hsucc, ?_⟩
      exact (hrec2.2.2).trans (by
        show List.map cid (applyAssign st.store x o asHome) = List.map cid st.store
        rw [applyAssign, appendOpp_map_cid, appendOpp_map_cid])
    · rename_i hfail
      have hfail2 : (rec (invalidate_cache
          (invalidate_cache { st with store := applyAssign st.store x o asHome } x.name)
          o.name)).1 = false := by
        revert hfail
        cases (rec (invalidate_cache
          (invalidate_cache { st with store := applyAssign st.store x o asHome } x.name)
          o.name)).1 <;> simp
      have hrest := hrec2.1 hfail2
      have hT6 : (invalidate_cache (invalidate_cache
          { (rec (invalidate_cache (invalidate_cache
              { st with store := applyAssign st.store x o asHome } x.name) o.name)).2 with
            bt := (rec (invalidate_cache (invalidate_cache
              { st with store := applyAssign st.store x o asHome } x.name) o.name)).2.bt + 1,
            store := applyUndo (rec (invalidate_cache (invalidate_cache
              { st with store := applyAssign st.store x o asHome } x.name) o.name)).2.store x o asHome,
            undos := (rec (invalidate_cache (invalidate_cache
              { st with store := applyAssign st.store x o asHome } x.name) o.name)).2.undos + 1 } x.name) o.name).store
          = st.store := by
        show applyUndo (rec (invalidate_cache (invalidate_cache
          { st with store := applyAssign st.store x o asHome } x.name) o.name)).2.store x o asHome
          = st.store
        rw [hrest]
        exact undo_assign_of_can_pair hinv.1.1 hfo hro
      have ih := tryCands_ok x asHome rec hrec rest
        (invalidate_cache (invalidate_cache
          { (rec (invalidate_cache (invalidate_cache
              { st with store := applyAssign st.store x o asHome } x.name) o.name)).2 with
            bt := (rec (invalidate_cache (invalidate_cache
              { st with store := applyAssign st.store x o asHome } x.name) o.name)).2.bt + 1,
            store := applyUndo (rec (invalidate_cache (invalidate_cache
              { st with store := applyAssign st.store x o asHome } x.name) o.name)).2.store x o asHome,
            undos := (rec (invalidate_cache (invalidate_cache
              { st with store := applyAssign st.store x o asHome } x.name) o.name)).2.undos + 1 } x.name) o.name)
        (by rw [hT6]; exact hinv)
        (by rw [hT6]; exact fun o' ho' => hcands o' (List.mem_cons_of_mem o ho'))
      refine ⟨fun h => (ih.1 h).trans hT6, ih.2.1, ih.2.2.trans ?_⟩
      rw [hT6]

/-- The direction loop satisfies the search contract. -/
theorem tryDirs_ok {K : Profile} (O : Oracle) {ids : List ClubId} (x : ClubId)
    (rec : SearchSt → Bool × SearchSt) (hrec : RecOK K ids rec) :
    ∀ (dirs : List Bool) (st : SearchSt), SearchInv K st.store →
      ((tryDirs K O ids x rec dirs st).1 = false →
        (tryDirs K O ids x rec dirs st).2.store = st.store) ∧
      ((tryDirs K O ids x rec dirs st).1 = true →
        SearchInv K (tryDirs K O ids x rec dirs st).2.store ∧
          ids.filter (fun y => !(is_complete (tryDirs K O ids x rec dirs st).2.store y)) = []) ∧
      (tryDirs K O ids x rec dirs st).2.store.map cid = st.store.map cid
  | [], st, _ => ⟨fun _ => rfl, fun h => by simp [tryDirs] at h, rfl⟩
  | d :: rest, st, hinv => by
    have hinvq : SearchInv K (get_valid_opponents_sorted K O ids x d st).2.store := hinv
    have hcands : ∀ o ∈ (get_valid_opponents_sorted K O ids x d st).1,
        can_pair K st.store x o d = true ∧ can_pair K st.store o x (!d) = true :=
      fun o ho => sorted_candidate_valid ho
    have htc := tryCands_ok x d rec hrec (get_valid_opponents_sorted K O ids x d st).1
      (get_valid_opponents_sorted K O ids x d st).2 hinvq hcands
    unfold tryDirs
    dsimp only
    split
    · rename_i hsucc
      exact ⟨fun h => by simp at h, fun _ => htc.2.1 hsucc, htc.2.2⟩
    · rename_i hfail
      have hfail2 : (tryCands x d rec (get_valid_opponents_sorted K O ids x d st).1
          (get_valid_opponents_sorted K O ids x d st).2).1 = false := by
        revert hfail
        cases (tryCands x d rec (get_valid_opponents_sorted K O ids x d st).1
          (get_valid_opponents_sorted K O ids x d st).2).1 <;> simp
      have hrest : (tryCands x d rec (get_valid_opponents_sorted K O ids x d st).1
          (get_valid_opponents_sorted K O ids x d st).2).2.store = st.store := htc.1 hfail2
      have ih := tryDirs_ok O x rec hrec rest
        (tryCands x d rec (get_valid_opponents_sorted K O ids x d st).1
          (get_valid_opponents_sorted K O ids x d st).2).2
        (by rw [hrest]; exact hinv)
      exact ⟨fun h => (ih.1 h).trans hrest, ih.2.1, ih.2.2.trans (by rw [hrest])⟩

/-- `_assign_opponents_optimized` satisfies the search contract at every
fuel level. -/
theorem assign_ok (K : Profile) (u : Bool) (O : Oracle) (ids : List ClubId) :
    ∀ (fuel : Nat) (st : SearchSt), SearchInv K st.store →
      ((assign_opponents K u O ids fuel st).1 = false →
        (assign_opponents K u O ids fuel st).2.store = st.store) ∧
      ((assign_opponents K u O ids fuel st).1 = true →
        SearchInv K (assign_opponents K u O ids fuel st).2.store ∧
          ids.filter (fun y => !(is_complete (assign_opponents K u O ids fuel st).2.store y)) = []) ∧
      (assign_opponents K u O ids fuel st).2.store.map cid = st.store.map cid
  | 0, st, _ => ⟨fun _ => rfl, fun h => by simp [assign_opponents] at h, rfl⟩
  | fuel + 1, st, hinv => by
    unfold assign_opponents
    dsimp only
    split
    · exact ⟨fun _ => rfl, fun h => by simp at h, rfl⟩
    · split
      · rename_i heq
        exact ⟨fun h => by simp at h, fun _ => ⟨hinv, heq⟩, rfl⟩
      · rename_i x0 irest heq
        obtain ⟨hfs, -, -, -⟩ := forwardCheck_pres K u ids (x0 :: irest) st
        split
        · rename_i hfc
          obtain ⟨hms, -, -, -⟩ :=
            mrvMin_pres K u ids x0 irest (forwardCheck K u ids (x0 :: irest) st).2
          have hqs : (mrvMin K u ids x0 irest
              (forwardCheck K u ids (x0 :: irest) st).2).2.store = st.store := hms.trans hfs
          have hinvq : SearchInv K (mrvMin K u ids x0 irest
              (forwardCheck K u ids (x0 :: irest) st).2).2.store := by
            rw [hqs]; exact hinv
          split
          · have ih := assign_ok K u O ids fuel
              (mrvMin K u ids x0 irest (forwardCheck K u ids (x0 :: irest) st).2).2 hinvq
            exact ⟨fun h => (ih.1 h).trans hqs, ih.2.1, ih.2.2.trans (by rw [hqs])⟩
          · have hd := tryDirs_ok O
              (mrvMin K u ids x0 irest (forwardCheck K u ids (x0 :: irest) st).2).1
              (assign_opponents K u O ids fuel)
              (fun st2 h2 => assign_ok K u O ids fuel st2 h2)
              ((if needs_home_pos
                  (mrvMin K u ids x0 irest (forwardCheck K u ids (x0 :: irest) st).2).2.store
                  (mrvMin K u ids x0 irest (forwardCheck K u ids (x0 :: irest) st).2).1
                then [true] else []) ++
               (if needs_away_pos
                  (mrvMin K u ids x0 irest (forwardCheck K u ids (x0 :: irest) st).2).2.store
                  (mrvMin K u ids x0 irest (forwardCheck K u ids (x0 :: irest) st).2).1
                then [false] else []))
              (mrvMin K u ids x0 irest (forwardCheck K u ids (x0 :: irest) st).2).2 hinvq
            exact ⟨fun h => (hd.1 h).trans hqs, hd.2.1, hd.2.2.trans (by rw [hqs])⟩
        · rename_i hfc
          dsimp only
          exact ⟨fun _ => hfs, fun h => absurd h (by decide), by rw [hfs]⟩

/-- Resetting clubs preserves their identities. -/
theorem initState_map_cid (clubs : List ClubSt) :
    (initState clubs).map cid = clubs.map cid := by
  rw [initState, List.map_map]
  rfl

/-- The reset store satisfies the full search invariant whenever the
entrant identities are distinct. -/
theorem searchInv_init (K : Profile) (clubs : List ClubSt)
    (hnd : (clubs.map cid).Nodup) : SearchInv K (initState clubs) := by
  refine ⟨⟨by rw [initState_map_cid]; exact hnd, ?_⟩, ?_⟩
  · intro c hc
    rcases List.mem_map.mp hc with ⟨d, hd, rfl⟩
    simp [cid, all_opponents]
  · intro c hc o ho
    rcases List.mem_map.mp hc with ⟨d, hd, rfl⟩
    simp [all_opponents] at ho

/-- A club of pot `p` contributes its identity to `potIds` of the reset
store. -/
theorem potIds_init_mem {clubs : List ClubSt} {c : ClubSt} (hc : c ∈ clubs) :
    cid c ∈ potIds (initState clubs) c.pot := by
  refine List.mem_map.mpr ⟨{ c with home := [], away := [] }, ?_, rfl⟩
  refine List.mem_filter.mpr ⟨List.mem_map.mpr ⟨c, hc, rfl⟩, by simp⟩

/-- Structure of a draw that reports success: the final store satisfies
the search invariant, keeps the entrant identities, and holds at least
one club that `is_complete` accepts. -/
theorem drawRun_valid_structure (K : Profile) (u : Bool) (clubs : List ClubSt)
    (O : Oracle) (hnd : (clubs.map cid).Nodup)
    (hpot : ∃ c ∈ clubs, 1 ≤ c.pot ∧ c.pot ≤ 4)
    (hv : (drawRun K u clubs O).1.is_valid = true) :
    SearchInv K (drawRun K u clubs O).1.clubs ∧
      (drawRun K u clubs O).1.clubs.map cid = clubs.map cid ∧
      ∃ y, is_complete (drawRun K u clubs O).1.clubs y = true := by
  have hne : clubs ≠ [] := by
    rintro rfl
    rcases hpot with ⟨c, hc, -⟩
    cases hc
  unfold drawRun at hv ⊢
  rw [if_neg hne] at hv ⊢
  dsimp only at hv ⊢
  have h := assign_ok K u O
    (shuffleList O 0 (potIds (initState clubs) 1)
      ++ shuffleList O 1 (potIds (initState clubs) 2)
      ++ shuffleList O 2 (potIds (initState clubs) 3)
      ++ shuffleList O 3 (potIds (initState clubs) 4))
    (drawFuel clubs.length)
    ⟨initState clubs, 0, [], 4, 0⟩
    (searchInv_init K clubs hnd)
  obtain ⟨hfinv, hfilter⟩ := h.2.1 hv
  refine ⟨hfinv, (h.2.2).trans (initState_map_cid clubs), ?_⟩
  rcases hpot with ⟨c, hc, hp1, hp4⟩
  have hmem : cid c ∈ potIds (initState clubs) c.pot := potIds_init_mem hc
  have hlenpos : 0 < (shuffleList O 0 (potIds (initState clubs) 1)
      ++ shuffleList O 1 (potIds (initState clubs) 2)
      ++ shuffleList O 2 (potIds (initState clubs) 3)
      ++ shuffleList O 3 (potIds (initState clubs) 4)).length := by
    simp only [List.length_append, shuffleList_length]
    have hpp : c.pot = 1 ∨ c.pot = 2 ∨ c.pot = 3 ∨ c.pot = 4 := by omega
    have hone : ∀ p, c.pot = p → 0 < (potIds (initState clubs) p).length := by
      intro p hp
      exact List.length_pos.mpr (List.ne_nil_of_mem (hp ▸ hmem))
    rcases hpp with hp | hp | hp | hp <;> have := hone _ hp <;> omega
  rcases List.exists_mem_of_length_pos hlenpos with ⟨y, hy⟩
  refine ⟨y, ?_⟩
  have h2 := List.filter_eq_nil_iff.mp hfilter y hy
  show is_complete ((assign_opponents K u O
    (shuffleList O 0 (potIds (initState clubs) 1)
      ++ shuffleList O 1 (potIds (initState clubs) 2)
      ++ shuffleList O 2 (potIds (initState clubs) 3)
      ++ shuffleList O 3 (potIds (initState clubs) 4)) (drawFuel clubs.length)
    ⟨initState clubs, 0, [], 4, 0⟩).2.store) y = true
  simpa using h2

/-- Claim C2 (amended): with the Conference League profile, every draw
over a distinct-identity entrant list containing at least one club in
pots 1–4 reports failure — `is_complete` hardcodes 4+4 opponents while
`can_pair` caps the lists at 3+3, so the searched clubs can never all
complete. -/
theorem C2_amended (clubs : List ClubSt) (u : Bool) (O : Oracle)
    (hnd : (clubs.map cid).Nodup)
    (hpot : ∃ c ∈ clubs, 1 ≤ c.pot ∧ c.pot ≤ 4) :
    (drawRun conferenceProfile u clubs O).1.is_valid = false := by
  cases hv : (drawRun conferenceProfile u clubs O).1.is_valid with
  | false => rfl
  | true =>
    exfalso
    obtain ⟨hsinv, -, y, hy⟩ :=
      drawRun_valid_structure conferenceProfile u clubs O hnd hpot hv
    unfold is_complete at hy
    revert hy
    cases hg : getClub (drawRun conferenceProfile u clubs O).1.clubs y with
    | none => intro hy; cases hy
    | some cy =>
      intro hy
      simp only [Bool.and_eq_true, decide_eq_true_eq] at hy
      have hcap := (hsinv.1.2 cy (getClub_mem hg).1).2.2.1
      rw [hy.1] at hcap
      exact absurd hcap (by decide)


/-- Claim C2 witness: the amended theorem applied to a concrete entrant
list. -/
theorem C2_amended_witness :
    (drawRun conferenceProfile true c2clubs idOracle).1.is_valid = false :=
  C2_amended c2clubs true idOracle (by decide)
    ⟨mkClub "Pa" "K1" 1, by decide, by decide, by decide⟩

/-- Claim C4 counterexample: a two-entrant Champions League draw is
malformed input (fewer entrants than the profile requires), yet `draw()`
runs the backtracking search and consumes backtrack budget — the failure
report arrives only after the search, not before it. -/
theorem C4_counterexample :
    (drawRun championsProfile true [mkClub "Pa" "K1" 1, mkClub "Qa" "K2" 2]
        idOracle).1.is_valid = false ∧
      (drawRun championsProfile true [mkClub "Pa" "K1" 1, mkClub "Qa" "K2" 2]
        idOracle).1.backtrack_count ≠ 0 := by
  decide

/-- Claim C4 (amended): with the Champions League profile, a draw over a
distinct-identity entrant list of at most 8 clubs with at least one club
in pots 1–4 reports failure (after the search): completing a club takes
8 pairwise distinct opponents drawn from the at most 7 other stored
identities. -/
theorem C4_amended (clubs : List ClubSt) (u : Bool) (O : Oracle)
    (hnd : (clubs.map cid).Nodup) (hlen : clubs.length ≤ 8)
    (hpot : ∃ c ∈ clubs, 1 ≤ c.pot ∧ c.pot ≤ 4) :
    (drawRun championsProfile u clubs O).1.is_valid = false := by
  cases hv : (drawRun championsProfile u clubs O).1.is_valid with
  | false => rfl
  | true =>
    exfalso
    obtain ⟨hsinv, hmap, y, hy⟩ :=
      drawRun_valid_structure championsProfile u clubs O hnd hpot hv
    unfold is_complete at hy
    revert hy
    cases hg : getClub (drawRun championsProfile u clubs O).1.clubs y with
    | none => intro hy; cases hy
    | some cy =>
      intro hy
      simp only [Bool.and_eq_true, decide_eq_true_eq] at hy
      have hcy := getClub_mem hg
      obtain ⟨hself, hnodup, -, -⟩ := hsinv.1.2 cy hcy.1
      have hin := hsinv.2 cy hcy.1
      have hlen8 : (all_opponents cy).length = 8 := by
        rw [all_opponents, List.length_append, hy.1, hy.2]
      have hsubs : insert (cid cy) (all_opponents cy).toFinset
          ⊆ ((drawRun championsProfile u clubs O).1.clubs.map cid).toFinset := by
        intro z hz
        rcases Finset.mem_insert.mp hz with rfl | hz2
        · exact List.mem_toFinset.mpr (List.mem_map.mpr ⟨cy, hcy.1, rfl⟩)
        · exact List.mem_toFinset.mpr (hin z (List.mem_toFinset.mp hz2))
      have hcard1 : (insert (cid cy) (all_opponents cy).toFinset).card = 9 := by
        rw [Finset.card_insert_of_not_mem (fun hm => hself (List.mem_toFinset.mp hm))]
        rw [List.toFinset_card_of_nodup hnodup, hlen8]
      have hcard2 := Finset.card_le_card hsubs
      have hcard3 := List.toFinset_card_le ((drawRun championsProfile u clubs O).1.clubs.map cid)
      have hcard4 : ((drawRun championsProfile u clubs O).1.clubs.map cid).length
          = clubs.length := by
        rw [hmap, List.length_map]
      omega


/-- Claim C4 witness: the amended theorem applied to a concrete
too-small entrant list. -/
theorem C4_amended_witness :
    (drawRun championsProfile true c4clubs idOracle).1.is_valid = false :=
  C4_amended c4clubs true idOracle (by decide) (by decide)
    ⟨mkClub "Pa" "K1" 1, by decide, by decide, by decide⟩

/-- Claim C2 counterexample: an entrant list whose only club sits outside
pots 1–4.  The pot loop of `draw()` never picks the club up, the search
sees no incomplete club, and the Conference League draw reports success —
not the claimed universal failure. -/
theorem C2_counterexample :
    (drawRun conferenceProfile true [mkClub "Pa" "K1" 5] idOracle).1.is_valid = true := by
  decide

/-- Claim C1 (amended): divergence between the cached and the uncached
solver enters only through cache hits.  The uncached counter always
returns the fresh `_count_valid_opponents` value, and the cached counter
does too unless the lookup hits, in which case it returns the stored
entry verbatim — a value that can be stale for the current store. -/
theorem C1_amended (K : Profile) (ids : List ClubId) (x : ClubId) (st : SearchSt) :
    (count_valid_cached K false ids x st).1 = count_valid_opponents K st.store x ids ∧
      ((count_valid_cached K true ids x st).1 = count_valid_opponents K st.store x ids
        ∨ lookupAssoc st.cache (cacheKey st.store x)
            = some (count_valid_cached K true ids x st).1) := by
  constructor
  · rfl
  · unfold count_valid_cached
    rw [if_pos rfl]
    dsimp only
    cases hl : lookupAssoc st.cache (cacheKey st.store x) with
    | none => exact Or.inl rfl
    | some v => exact Or.inr rfl


set_option maxRecDepth 1000000 in
set_option maxHeartbeats 200000000 in
/-- Claim C1 counterexample: on a concrete nine-club entrant set and
seed stream, the cached and the otherwise identical uncached solver
both succeed without backtracking, yet produce different final
home-opponent lists for club `D` — a stale cache hit reorders MRV
selection, so the cache changes observable search results. -/
theorem C1_counterexample :
    Option.map ClubSt.home (getClub (drawRun championsProfile true c1clubs c1oracle).1.clubs ⟨"D", "d"⟩)
      ≠ Option.map ClubSt.home (getClub (drawRun championsProfile false c1clubs c1oracle).1.clubs ⟨"D", "d"⟩) := by
  decide
